import Mathlib

/-!
Verification of the Read v2 terminology engine from the eadapt-needs-analysis
repository.  The Rust sources under `src/lib/src` are shallowly embedded as
executable Lean definitions: Read codes become length-5 byte lists, the
ordered `BTreeMap` thesaurus becomes a strictly sorted association list, the
term-filter compiler becomes a small regex AST with an executable matching
semantics, and the subtype classifier becomes a function from subtypes to
finite sets of patient ids.
-/

namespace EAdapt

/-- `is_read_ch` from `read2.rs`: ASCII alphanumeric or `'.'` (byte 46). -/
def isReadCh (b : Nat) : Bool :=
  (48 ≤ b && b ≤ 57) || (65 ≤ b && b ≤ 90) || (97 ≤ b && b ≤ 122) || b == 46

/-- A Read v2 code: the Rust type `ReadCode([u8; 5])`, a fixed array of five
bytes.  Validity of the bytes is checked by `fromBytes`, not by the type. -/
structure ReadCode where
  bytes : List Nat
  len5 : bytes.length = 5

theorem ReadCode.ext_iff' (a b : ReadCode) : a = b ↔ a.bytes = b.bytes := by
  constructor
  · intro h; rw [h]
  · intro h; cases a; cases b; simp_all

instance : DecidableEq ReadCode := fun a b =>
  decidable_of_iff (a.bytes = b.bytes) (ReadCode.ext_iff' a b).symm

/-- `ReadCode::has_children`: the fifth byte is `'.'`. -/
def ReadCode.has_children (c : ReadCode) : Bool :=
  c.bytes.getD 4 0 == 46

/-- Pointwise part of `ReadCode::is_child_of`: at every position, either the
parent holds a `'.'` or the two codes agree. -/
def childBytes : List Nat → List Nat → Bool
  | [], [] => true
  | s :: ss, p :: ps => (p == 46 || s == p) && childBytes ss ps
  | _, _ => false

/-- `ReadCode::is_child_of` from `read2.rs`: not equal to the parent, and at
every position where the parent is not `'.'` the bytes agree. -/
def ReadCode.is_child_of (c parent : ReadCode) : Bool :=
  !decide (c = parent) && childBytes c.bytes parent.bytes

/-- `ReadCode::is_parent_of` from `read2.rs`. -/
def ReadCode.is_parent_of (c child : ReadCode) : Bool :=
  child.is_child_of c

/-- The position-by-position comparison from `impl Ord for ReadCode`:
`'.'` sorts before every other byte, other bytes compare naturally. -/
def cmpBytes : List Nat → List Nat → Ordering
  | [], [] => .eq
  | [], _ :: _ => .eq
  | _ :: _, [] => .eq
  | a :: as_, b :: bs =>
    if a = 46 ∧ b = 46 then cmpBytes as_ bs
    else if a = 46 then .lt
    else if b = 46 then .gt
    else if a < b then .lt
    else if b < a then .gt
    else cmpBytes as_ bs

/-- `Ord::cmp` for `ReadCode`. -/
def ReadCode.cmp (a b : ReadCode) : Ordering :=
  cmpBytes a.bytes b.bytes

/-- Key that linearises the per-byte order: `'.'` (46) goes to the bottom. -/
def keyb (b : Nat) : Nat := if b = 46 then 0 else b + 1

theorem keyb_inj {a b : Nat} (h : keyb a = keyb b) : a = b := by
  unfold keyb at h
  split at h <;> split at h <;> omega

theorem cmpBytes_cons (a b : Nat) (as_ bs : List Nat) :
    cmpBytes (a :: as_) (b :: bs) =
      if keyb a < keyb b then .lt
      else if keyb b < keyb a then .gt
      else cmpBytes as_ bs := by
  simp only [cmpBytes, keyb]
  by_cases ha : a = 46 <;> by_cases hb : b = 46
  · simp [ha, hb]
  · simp only [ha, hb, and_true, and_false, if_true, if_false, if_pos rfl]
    simp [hb]
  · simp only [ha, hb, and_true, and_false, false_and, if_false, if_pos rfl]
    simp [ha]
  · simp only [ha, hb, and_false, if_false, if_neg ha, if_neg hb]
    split_ifs <;> first | rfl | omega

theorem cmpBytes_self (l : List Nat) : cmpBytes l l = .eq := by
  induction l with
  | nil => rfl
  | cons a as_ ih => rw [cmpBytes_cons]; simp [ih]

theorem cmpBytes_eq_iff {a b : List Nat} (hlen : a.length = b.length) :
    cmpBytes a b = .eq ↔ a = b := by
  induction a generalizing b with
  | nil => cases b with
    | nil => simp [cmpBytes]
    | cons _ _ => simp at hlen
  | cons x xs ih =>
    cases b with
    | nil => simp at hlen
    | cons y ys =>
      rw [cmpBytes_cons]
      split_ifs with h1 h2
      · constructor
        · intro h; simp at h
        · intro h
          injection h with hx _
          subst hx
          omega
      · constructor
        · intro h; simp at h
        · intro h
          injection h with hx _
          subst hx
          omega
      · have hxy : x = y := keyb_inj (by omega)
        subst hxy
        have hlen' : xs.length = ys.length := by simpa using hlen
        rw [ih hlen']
        simp

theorem cmpBytes_swap {a b : List Nat} (h : cmpBytes a b = .lt) :
    cmpBytes b a = .gt := by
  induction a generalizing b with
  | nil => cases b with
    | nil => simp [cmpBytes] at h
    | cons _ _ => simp [cmpBytes] at h
  | cons x xs ih =>
    cases b with
    | nil => simp [cmpBytes] at h
    | cons y ys =>
      rw [cmpBytes_cons] at h
      rw [cmpBytes_cons]
      split_ifs at h with h1 h2
      · rw [if_neg (by omega), if_pos h1]
      · rw [if_neg (by omega), if_neg (by omega)]
        exact ih h

theorem cmpBytes_trans {a b c : List Nat} (hab : cmpBytes a b = .lt)
    (hbc : cmpBytes b c = .lt) : cmpBytes a c = .lt := by
  induction a generalizing b c with
  | nil => cases b with
    | nil => simp [cmpBytes] at hab
    | cons _ _ => simp [cmpBytes] at hab
  | cons x xs ih =>
    cases b with
    | nil => simp [cmpBytes] at hab
    | cons y ys =>
      cases c with
      | nil => simp [cmpBytes] at hbc
      | cons z zs =>
        rw [cmpBytes_cons] at hab hbc
        rw [cmpBytes_cons]
        split_ifs at hab with h1 h2 <;> split_ifs at hbc with h3 h4
        · rw [if_pos (by omega)]
        · rw [if_pos (by omega)]
        · rw [if_pos (by omega)]
        · rw [if_neg (by omega), if_neg (by omega)]
          exact ih hab hbc

/-- Dots appear only as a trailing run (true of every real Read v2 code). -/
def dotSuffix (l : List Nat) : Bool :=
  (l.dropWhile (fun b => !(b == 46))).all (fun b => b == 46)

theorem all46_dotSuffix {t : List Nat} (h : t.all (fun b => b == 46) = true) :
    dotSuffix t = true := by
  cases t with
  | nil => rfl
  | cons x xs =>
    simp only [List.all_cons, Bool.and_eq_true, beq_iff_eq] at h
    obtain ⟨hx, hxs⟩ := h
    subst hx
    simp [dotSuffix, List.dropWhile, hxs]

theorem dotSuffix_cons_46 {t : List Nat} (h : dotSuffix (46 :: t) = true) :
    t.all (fun b => b == 46) = true := by
  rw [dotSuffix, List.dropWhile_cons, if_neg (by simp)] at h
  simpa using h

theorem dotSuffix_tail {a : Nat} {t : List Nat} (h : dotSuffix (a :: t) = true) :
    dotSuffix t = true := by
  by_cases ha : a = 46
  · subst ha
    exact all46_dotSuffix (dotSuffix_cons_46 h)
  · rw [dotSuffix, List.dropWhile_cons, if_pos (by simp [ha])] at h
    exact h

theorem childBytes_all46 {parent c : List Nat}
    (hall : parent.all (fun b => b == 46) = true)
    (hlen : c.length = parent.length) : childBytes c parent = true := by
  induction parent generalizing c with
  | nil =>
    cases c with
    | nil => rfl
    | cons _ _ => simp at hlen
  | cons p ps ih =>
    cases c with
    | nil => simp at hlen
    | cons x xs =>
      simp only [List.all_cons, Bool.and_eq_true, beq_iff_eq] at hall
      obtain ⟨hp, hps⟩ := hall
      subst hp
      simp only [childBytes, Bool.and_eq_true, Bool.or_eq_true, beq_iff_eq]
      exact ⟨by simp, ih hps (by simpa using hlen)⟩

/-- If `b` is (pointwise) a child of `a` and they differ, `a` sorts strictly
before `b` under the custom order. -/
theorem childBytes_lt {a b : List Nat} (hc : childBytes b a = true)
    (hne : b ≠ a) : cmpBytes a b = .lt := by
  induction a generalizing b with
  | nil =>
    cases b with
    | nil => exact absurd rfl hne
    | cons _ _ => simp [childBytes] at hc
  | cons x xs ih =>
    cases b with
    | nil => simp [childBytes] at hc
    | cons y ys =>
      simp only [childBytes, Bool.and_eq_true, Bool.or_eq_true, beq_iff_eq] at hc
      obtain ⟨hhead, htail⟩ := hc
      rw [cmpBytes_cons]
      rcases hhead with hx46 | hyx
      · subst hx46
        by_cases hy : y = 46
        · subst hy
          rw [if_neg (by simp [keyb]), if_neg (by simp [keyb])]
          exact ih htail (by intro h; exact hne (by rw [h]))
        · rw [if_pos (by simp [keyb, hy])]
      · subst hyx
        rw [if_neg (by omega), if_neg (by omega)]
        exact ih htail (by intro h; exact hne (by rw [h]))

/-- Contiguity of descendant ranges: if the dots of `a` form a trailing run,
`b` is a child of `a`, and `a < x < b`, then `x` is also a child of `a`
(pointwise; `x ≠ a` follows from `a < x`). -/
theorem childBytes_contiguous {a x b : List Nat}
    (hlen1 : a.length = x.length) (hlen2 : x.length = b.length)
    (hdot : dotSuffix a = true) (hchild : childBytes b a = true)
    (hax : cmpBytes a x = .lt) (hxb : cmpBytes x b = .lt) :
    childBytes x a = true := by
  induction a generalizing x b with
  | nil =>
    cases x with
    | nil => simp [cmpBytes] at hax
    | cons _ _ => simp at hlen1
  | cons ha ta ih =>
    cases x with
    | nil => simp at hlen1
    | cons hx tx =>
      cases b with
      | nil => simp at hlen2
      | cons hb tb =>
        simp only [childBytes, Bool.and_eq_true, Bool.or_eq_true,
          beq_iff_eq] at hchild
        obtain ⟨hchead, hctail⟩ := hchild
        rw [cmpBytes_cons] at hax hxb
        have hta_of_46 : ha = 46 →
            childBytes (hx :: tx) (ha :: ta) = true := by
          intro h46
          subst h46
          simp only [childBytes, Bool.and_eq_true, Bool.or_eq_true, beq_iff_eq]
          refine ⟨by simp, ?_⟩
          exact childBytes_all46 (dotSuffix_cons_46 hdot) (by simpa using hlen1.symm)
        split_ifs at hax with hax1 <;> split_ifs at hxb with hxb1
        · -- keyb ha < keyb hx and keyb hx < keyb hb
          refine hta_of_46 ?_
          rcases hchead with h | h
          · exact h
          · subst h
            omega
        · -- keyb ha < keyb hx, keyb hx = keyb hb
          refine hta_of_46 ?_
          rcases hchead with h | h
          · exact h
          · subst h
            omega
        · -- keyb ha = keyb hx, keyb hx < keyb hb
          refine hta_of_46 ?_
          rcases hchead with h | h
          · exact h
          · subst h
            omega
        · -- keys all equal: recurse on tails
          have hx_eq : hx = ha := keyb_inj (by omega)
          have hb_eq : hb = hx := keyb_inj (by omega)
          subst hx_eq
          simp only [childBytes, Bool.and_eq_true, Bool.or_eq_true, beq_iff_eq]
          refine ⟨by simp, ?_⟩
          subst hb_eq
          exact ih (by simpa using hlen1) (by simpa using hlen2)
            (dotSuffix_tail hdot) hctail hax hxb

/-- `"A.A.."`: a (synthetic but byte-valid) code with an interior dot. -/
def codeIntA : ReadCode := ⟨[65, 46, 65, 46, 46], rfl⟩

/-- `"A.B.."`. -/
def codeIntX : ReadCode := ⟨[65, 46, 66, 46, 46], rfl⟩

/-- `"AzA.."`. -/
def codeIntB : ReadCode := ⟨[65, 122, 65, 46, 46], rfl⟩

/-- `"A1..."`. -/
def codeSufA : ReadCode := ⟨[65, 49, 46, 46, 46], rfl⟩

/-- `"A11.."`. -/
def codeSufX : ReadCode := ⟨[65, 49, 49, 46, 46], rfl⟩

/-- `"A12.."`. -/
def codeSufB : ReadCode := ⟨[65, 49, 50, 46, 46], rfl⟩

/-- C1 counterexample: for codes whose dots are not a trailing run the
descendant range is not contiguous.  `A.A..` is a parent of `AzA..`,
`A.A.. < A.B.. < AzA..` in the custom order, yet `A.B..` is not a
descendant of `A.A..`. -/
theorem readCode_contiguity_cex :
    codeIntA.is_parent_of codeIntB = true ∧
    codeIntA.cmp codeIntX = .lt ∧
    codeIntX.cmp codeIntB = .lt ∧
    codeIntA.is_parent_of codeIntX = false := by decide

/-- C1 (amended): the custom comparison on `ReadCode` is a total order
(exactly one of `<`, `=`, `>`; `eq` exactly on equal byte arrays; transitive),
and `is_parent_of a b` implies `a < b`; contiguity of the descendant range
(every `x` with `a < x < b` a descendant of `a`) holds under the additional
hypothesis — omitted by the claim but required, and true of every real Read
code — that the dots of `a` form a trailing run. -/
theorem readCode_order_and_contiguity (a b x : ReadCode) :
    (a.cmp b = .lt ∨ a = b ∨ a.cmp b = .gt) ∧
    (a.cmp b = .lt → a ≠ b) ∧
    (a = b → a.cmp b ≠ .lt ∧ a.cmp b ≠ .gt) ∧
    (a.cmp b = .eq ↔ a = b) ∧
    (∀ c : ReadCode, a.cmp b = .lt → b.cmp c = .lt → a.cmp c = .lt) ∧
    (a.is_parent_of b = true → a.cmp b = .lt) ∧
    (dotSuffix a.bytes = true → a.is_parent_of b = true →
      a.cmp x = .lt → x.cmp b = .lt → a.is_parent_of x = true) := by
  have hab : a.bytes.length = b.bytes.length := by rw [a.len5, b.len5]
  have heq : a.cmp b = .eq ↔ a = b :=
    (cmpBytes_eq_iff hab).trans (ReadCode.ext_iff' a b).symm
  have hparent : a.is_parent_of b = true → a.cmp b = .lt := by
    intro hp
    simp only [ReadCode.is_parent_of, ReadCode.is_child_of, Bool.and_eq_true,
      Bool.not_eq_true', decide_eq_false_iff_not] at hp
    exact childBytes_lt hp.2 (fun h => hp.1 ((ReadCode.ext_iff' b a).mpr h))
  refine ⟨?_, ?_, ?_, heq, ?_, hparent, ?_⟩
  · cases h : a.cmp b with
    | lt => exact Or.inl rfl
    | eq => exact Or.inr (Or.inl (heq.mp h))
    | gt => exact Or.inr (Or.inr rfl)
  · intro h hcontra
    have hcmp : a.cmp b = .eq := heq.mpr hcontra
    rw [h] at hcmp
    cases hcmp
  · intro h
    have hcmp : a.cmp b = .eq := heq.mpr h
    exact ⟨by rw [hcmp]; simp, by rw [hcmp]; simp⟩
  · intro c h1 h2
    exact cmpBytes_trans h1 h2
  · intro hdot hp hax hxb
    simp only [ReadCode.is_parent_of, ReadCode.is_child_of, Bool.and_eq_true,
      Bool.not_eq_true', decide_eq_false_iff_not] at hp ⊢
    refine ⟨?_, ?_⟩
    · intro hxa
      have hcmp : a.cmp x = .eq :=
        (cmpBytes_eq_iff (by rw [a.len5, x.len5])).mpr
          (congrArg ReadCode.bytes hxa.symm)
      rw [hax] at hcmp
      cases hcmp
    · exact childBytes_contiguous (by rw [a.len5, x.len5]) (by rw [x.len5, b.len5])
        hdot hp.2 hax hxb

/-- C1 witness: the amended order/contiguity theorem applied at the concrete
codes `A1...`, `A12..`, `A11..`. -/
theorem readCode_order_and_contiguity_witness :
    codeSufA.is_parent_of codeSufX = true :=
  (readCode_order_and_contiguity codeSufA codeSufB codeSufX).2.2.2.2.2.2
    (by decide) (by decide) (by decide) (by decide)

-- ## C7: `ReadCode::from_bytes` and rendering

/-- ASCII digit test used for the two-byte synonym suffix. -/
def isAsciiDigit (b : Nat) : Bool := 48 ≤ b && b ≤ 57

/-- `ReadCode::from_bytes` from `read2.rs`: validates a 5-byte code or a
7-byte code-plus-synonym-suffix, then keeps the first five bytes. -/
def ReadCode.fromBytes (v : List Nat) : Except String ReadCode :=
  if h5 : v.length = 5 then
    if v.all isReadCh then .ok ⟨v, h5⟩
    else .error "read codes contain characters [a-zA-Z0-9.]"
  else if h7 : v.length = 7 then
    if (v.take 5).all isReadCh then
      if (v.drop 5).all isAsciiDigit then
        .ok ⟨v.take 5, by simp [h7]⟩
      else .error "Read code synonyms contain only numbers"
    else .error "Read codes contain characters [a-zA-Z0-9.]"
  else .error "expected a 5 or 7 characters long ascii string"

/-- The bytes of a string, as `Display`/`from_str` see them (codes are pure
ASCII, so chars and bytes coincide). -/
def strBytes (s : String) : List Nat := s.data.map Char.toNat

/-- `Display for ReadCode` from `read2.rs`: the five bytes, as a string. -/
def ReadCode.render (c : ReadCode) : String :=
  String.mk (c.bytes.map Char.ofNat)

theorem isReadCh_lt {b : Nat} (h : isReadCh b = true) : b < 123 := by
  simp only [isReadCh, Bool.or_eq_true, Bool.and_eq_true, decide_eq_true_eq,
    beq_iff_eq] at h
  omega

/-- C7: `from_bytes` succeeds exactly on 5-byte all-valid inputs and 7-byte
inputs whose first five bytes are valid code characters and last two are
ASCII digits; on success it returns the first five bytes; and parsing a
valid 5-character string then rendering gives the string back. -/
theorem readCode_fromBytes_spec (v : List Nat) (s : String) :
    ((∃ r, ReadCode.fromBytes v = .ok r) ↔
      ((v.length = 5 ∧ v.all isReadCh = true) ∨
       (v.length = 7 ∧ (v.take 5).all isReadCh = true ∧
         (v.drop 5).all isAsciiDigit = true))) ∧
    (∀ r, ReadCode.fromBytes v = .ok r → r.bytes = v.take 5) ∧
    ((strBytes s).length = 5 → (strBytes s).all isReadCh = true →
      ∃ r, ReadCode.fromBytes (strBytes s) = .ok r ∧ r.render = s) := by
  refine ⟨⟨?_, ?_⟩, ?_, ?_⟩
  · rintro ⟨r, hr⟩
    unfold ReadCode.fromBytes at hr
    split_ifs at hr with h5 hall h7 hfirst hdigits
    · exact Or.inl ⟨h5, hall⟩
    · exact Or.inr ⟨h7, hfirst, hdigits⟩
  · rintro (⟨h5, hall⟩ | ⟨h7, hf, hd⟩)
    · refine ⟨⟨v, h5⟩, ?_⟩
      unfold ReadCode.fromBytes
      rw [dif_pos h5, if_pos hall]
    · refine ⟨⟨v.take 5, by simp [h7]⟩, ?_⟩
      unfold ReadCode.fromBytes
      rw [dif_neg (by omega), dif_pos h7, if_pos hf, if_pos hd]
  · intro r hr
    unfold ReadCode.fromBytes at hr
    split_ifs at hr with h5 hall h7 hfirst hdigits
    · cases hr
      simp [List.take_of_length_le (by omega : v.length ≤ 5)]
    · cases hr
      rfl
  · intro hlen hall
    refine ⟨⟨strBytes s, hlen⟩, ?_, ?_⟩
    · unfold ReadCode.fromBytes
      rw [dif_pos hlen, if_pos hall]
    · show String.mk ((s.data.map Char.toNat).map Char.ofNat) = s
      rw [List.map_map]
      have : (Char.ofNat ∘ Char.toNat) = id := by
        funext c
        exact Char.ofNat_toNat c
      rw [this, List.map_id]

/-- C7 witness: the `from_bytes` specification applied to the concrete
7-byte input `"A12..00"` and the 5-character string `"F4K2z"`. -/
theorem readCode_fromBytes_spec_witness :
    ∃ r, ReadCode.fromBytes (strBytes "F4K2z") = .ok r ∧ r.render = "F4K2z" :=
  (readCode_fromBytes_spec [65, 49, 50, 46, 46, 48, 48] "F4K2z").2.2
    (by decide) (by decide)

-- ## C5: `CodeSetMatcher::contains` vs `CodeSet::contains`

/-- Prefix test on byte lists. -/
def isPrefixB : List Nat → List Nat → Bool
  | [], _ => true
  | _ :: _, [] => false
  | a :: as_, b :: bs => a == b && isPrefixB as_ bs

/-- Contiguous-substring test on byte lists: the match semantics of
`AhoCorasick::is_match` for a single pattern. -/
def isInfixB (p : List Nat) (hay : List Nat) : Bool :=
  isPrefixB p hay ||
    (match hay with
     | [] => false
     | _ :: t => isInfixB p t)

/-- `AhoCorasick::is_match` over the pattern set built from the code set:
true iff some pattern occurs as a contiguous substring of the haystack. -/
def ahoIsMatch (patterns : List (List Nat)) (haystack : List Nat) : Bool :=
  patterns.any (fun p => isInfixB p haystack)

/-- `CodeSet::contains` from `codeset.rs`: exact set membership. -/
def codeSetContains (s : List ReadCode) (c : ReadCode) : Bool :=
  decide (c ∈ s)

/-- `CodeSetMatcher::contains` from `codeset.rs`: runs the Aho–Corasick
matcher built from the code set over the queried code's five bytes. -/
def matcherContains (s : List ReadCode) (c : ReadCode) : Bool :=
  ahoIsMatch (s.map ReadCode.bytes) c.bytes

theorem isPrefixB_length {p h : List Nat} (hp : isPrefixB p h = true) :
    p.length ≤ h.length := by
  induction p generalizing h with
  | nil => simp
  | cons a as_ ih =>
    cases h with
    | nil => simp [isPrefixB] at hp
    | cons b bs =>
      simp only [isPrefixB, Bool.and_eq_true] at hp
      simpa using ih hp.2

theorem isPrefixB_refl (p : List Nat) : isPrefixB p p = true := by
  induction p with
  | nil => rfl
  | cons a as_ ih => simp [isPrefixB, ih]

theorem isPrefixB_eq {p h : List Nat} (hl : p.length = h.length) :
    isPrefixB p h = true ↔ p = h := by
  induction p generalizing h with
  | nil =>
    cases h with
    | nil => simp [isPrefixB]
    | cons _ _ => simp at hl
  | cons a as_ ih =>
    cases h with
    | nil => simp at hl
    | cons b bs =>
      simp only [isPrefixB, Bool.and_eq_true, beq_iff_eq, List.cons.injEq]
      rw [ih (by simpa using hl)]

theorem isInfixB_length {p h : List Nat} (hp : isInfixB p h = true) :
    p.length ≤ h.length := by
  induction h with
  | nil =>
    simp only [isInfixB, Bool.or_eq_true] at hp
    rcases hp with hp | hp
    · exact isPrefixB_length hp
    · cases hp
  | cons b bs ih =>
    simp only [isInfixB, Bool.or_eq_true] at hp
    rcases hp with hp | hp
    · exact isPrefixB_length hp
    · have := ih hp
      simp only [List.length_cons]
      omega

theorem isInfixB_eq {p h : List Nat} (hl : p.length = h.length) :
    isInfixB p h = true ↔ p = h := by
  constructor
  · intro hinf
    cases h with
    | nil =>
      simp only [isInfixB, Bool.or_eq_true] at hinf
      rcases hinf with hp | hp
      · exact (isPrefixB_eq hl).mp hp
      · cases hp
    | cons b bs =>
      simp only [isInfixB, Bool.or_eq_true] at hinf
      rcases hinf with hp | hp
      · exact (isPrefixB_eq hl).mp hp
      · have := isInfixB_length hp
        simp only [List.length_cons] at hl
        omega
  · intro hpe
    subst hpe
    cases p with
    | nil => rfl
    | cons a as_ =>
      simp only [isInfixB, Bool.or_eq_true]
      exact Or.inl (isPrefixB_refl _)

/-- C5: the Aho–Corasick-backed `CodeSetMatcher::contains` agrees with plain
`CodeSet::contains` on every code — exact membership, no hierarchical or
prefix matching — because every pattern and every queried code is exactly
five bytes long, so a substring hit forces byte-for-byte equality. -/
theorem matcherContains_eq_codeSetContains (s : List ReadCode) (c : ReadCode) :
    matcherContains s c = codeSetContains s c := by
  by_cases hmem : c ∈ s
  · have h1 : codeSetContains s c = true := decide_eq_true hmem
    have h2 : matcherContains s c = true := by
      simp only [matcherContains, ahoIsMatch, List.any_eq_true, List.mem_map]
      exact ⟨c.bytes, ⟨c, hmem, rfl⟩, (isInfixB_eq rfl).mpr rfl⟩
    rw [h1, h2]
  · have h1 : codeSetContains s c = false := decide_eq_false hmem
    have h2 : matcherContains s c = false := by
      rw [Bool.eq_false_iff]
      intro hcon
      simp only [matcherContains, ahoIsMatch, List.any_eq_true,
        List.mem_map] at hcon
      obtain ⟨p, ⟨r, hr, rfl⟩, hinf⟩ := hcon
      have hl : r.bytes.length = c.bytes.length := by rw [r.len5, c.len5]
      have hbe : r.bytes = c.bytes := (isInfixB_eq hl).mp hinf
      exact hmem (((ReadCode.ext_iff' r c).mpr hbe) ▸ hr)
    rw [h1, h2]

-- ## C6: `CodeSetMatcher::earliest_code`

/-- An event row (`Event` in `lib.rs`), restricted to the fields used by the
matcher queries and the subtype classifier. -/
structure Event where
  patient_id : Nat
  date : Int
  read_code : ReadCode
  rubric : String

/-- One update of the per-patient entry in `earliest_code`: `or_insert(date)`
followed by `if *entry < date { *entry = date }`. -/
def dateStep (o : Option Int) (d : Int) : Option Int :=
  match o with
  | none => some d
  | some d0 => some (if d0 < d then d else d0)

/-- The loop of `CodeSetMatcher::earliest_code` from `codeset.rs`, with the
`HashMap` modelled as a function from patient id to optional date. -/
def earliestAux (s : List ReadCode) (events : List Event)
    (m : Nat → Option Int) : Nat → Option Int :=
  match events with
  | [] => m
  | evt :: rest =>
    if matcherContains s evt.read_code then
      earliestAux s rest (fun pid =>
        if pid = evt.patient_id then dateStep (m evt.patient_id) evt.date
        else m pid)
    else earliestAux s rest m

/-- `CodeSetMatcher::earliest_code`, starting from the empty map. -/
def earliestCode (s : List ReadCode) (events : List Event) :
    Nat → Option Int :=
  earliestAux s events (fun _ => none)

/-- The dates of the events of patient `p` whose code the matcher contains. -/
def matchingDates (s : List ReadCode) (events : List Event) (p : Nat) :
    List Int :=
  (events.filter
    (fun e => matcherContains s e.read_code && decide (e.patient_id = p))).map
    Event.date

theorem earliestAux_foldl (s : List ReadCode) (events : List Event) :
    ∀ (m : Nat → Option Int) (p : Nat),
      earliestAux s events m p = (matchingDates s events p).foldl dateStep (m p) := by
  induction events with
  | nil => intro m p; rfl
  | cons evt rest ih =>
    intro m p
    by_cases hc : matcherContains s evt.read_code = true
    · by_cases hp : evt.patient_id = p
      · subst hp
        rw [earliestAux, if_pos hc, ih]
        simp [matchingDates, List.filter_cons, hc]
      · rw [earliestAux, if_pos hc, ih]
        rw [if_neg (fun h => hp h.symm)]
        simp [matchingDates, List.filter_cons, hc, hp]
    · rw [earliestAux, if_neg hc, ih]
      simp only [Bool.not_eq_true] at hc
      simp [matchingDates, List.filter_cons, hc]

theorem foldl_dateStep_ne_none (ds : List Int) :
    ∀ (x : Int), ds.foldl dateStep (some x) ≠ none := by
  induction ds with
  | nil =>
    intro x
    simp
  | cons e es ih =>
    intro x
    rw [List.foldl_cons]
    have hstep : dateStep (some x) e = some (if x < e then e else x) := rfl
    rw [hstep]
    exact ih _

theorem foldl_dateStep_max (ds : List Int) :
    ∀ (o : Option Int) (d : Int), ds.foldl dateStep o = some d →
      ((o = some d ∨ d ∈ ds) ∧ (∀ d' ∈ ds, d' ≤ d) ∧
        (∀ x, o = some x → x ≤ d)) := by
  induction ds with
  | nil =>
    intro o d h
    simp only [List.foldl_nil] at h
    exact ⟨Or.inl h, by simp, fun x hx => by rw [h] at hx; cases hx; rfl⟩
  | cons e es ih =>
    intro o d h
    rw [List.foldl_cons] at h
    obtain ⟨hmem, hall, hle⟩ := ih (dateStep o e) d h
    have hstep : ∀ x, dateStep o e = some x → e ≤ x := by
      intro x hx
      cases o with
      | none => simp [dateStep] at hx; omega
      | some d0 =>
        simp only [dateStep, Option.some.injEq] at hx
        split_ifs at hx <;> omega
    have hed : e ≤ d := by
      cases ho : dateStep o e with
      | none => cases o <;> simp [dateStep] at ho
      | some y => exact le_trans (hstep y ho) (hle y ho)
    refine ⟨?_, ?_, ?_⟩
    · rcases hmem with hm | hm
      · cases o with
        | none =>
          simp only [dateStep, Option.some.injEq] at hm
          exact Or.inr (by simp [← hm])
        | some d0 =>
          simp only [dateStep, Option.some.injEq] at hm
          split_ifs at hm
          · exact Or.inr (by simp [← hm])
          · exact Or.inl (by rw [hm])
      · exact Or.inr (List.mem_cons_of_mem _ hm)
    · intro d' hd'
      rcases List.mem_cons.mp hd' with h' | h'
      · subst h'; exact hed
      · exact hall d' h'
    · intro x hx
      subst hx
      have h1 : (if x < e then e else x) ≤ d := hle _ rfl
      split_ifs at h1 <;> omega

/-- C6: `earliest_code` is defined (has a key) for exactly the patients with
at least one event whose code the matcher contains, and maps each such
patient to the MAXIMUM (latest) matching date — the stored date is advanced
whenever a later matching date is seen, despite the function's name. -/
theorem earliestCode_spec (s : List ReadCode) (events : List Event) (p : Nat) :
    (earliestCode s events p = none ↔ matchingDates s events p = []) ∧
    (∀ d, earliestCode s events p = some d →
      d ∈ matchingDates s events p ∧ ∀ d' ∈ matchingDates s events p, d' ≤ d) := by
  constructor
  · rw [earliestCode, earliestAux_foldl]
    constructor
    · intro h
      cases hd : matchingDates s events p with
      | nil => rfl
      | cons e es =>
        rw [hd, List.foldl_cons] at h
        have hstep : dateStep none e = some e := rfl
        rw [hstep] at h
        exact absurd h (foldl_dateStep_ne_none es e)
    · intro h
      rw [h]
      rfl
  · intro d h
    rw [earliestCode, earliestAux_foldl] at h
    obtain ⟨hmem, hall, _⟩ := foldl_dateStep_max _ _ _ h
    refine ⟨?_, hall⟩
    rcases hmem with hm | hm
    · cases hm
    · exact hm

/-- `"H123."`: concrete code used in witnesses. -/
def evCode : ReadCode := ⟨[72, 49, 50, 51, 46], rfl⟩

/-- `"J...."`: concrete code outside the witness code set. -/
def evCodeOther : ReadCode := ⟨[74, 46, 46, 46, 46], rfl⟩

/-- Concrete event list used in witnesses. -/
def evList : List Event :=
  [⟨7, 3, evCode, "a"⟩, ⟨7, 5, evCode, "b"⟩, ⟨8, 2, evCodeOther, "c"⟩]

/-- C6 witness: patient 7 has matching dates 3 and 5 and `earliest_code`
returns 5 — the later one. -/
theorem earliestCode_spec_witness :
    (5 : Int) ∈ matchingDates [evCode] evList 7 ∧
      ∀ d' ∈ matchingDates [evCode] evList 7, d' ≤ (5 : Int) :=
  (earliestCode_spec [evCode] evList 7).2 5 (by decide)

-- ## C4: `Thesaurus::iter_descendants`

/-- `Thesaurus::iter_descendants` from `thesaurus.rs`: the `BTreeMap` is an
association list strictly sorted by the custom order; `range(parent..)`
becomes `dropWhile (key < parent)`, `skip(1)` becomes `drop 1`, then
`take_while (parent.is_parent_of key)`. -/
def iterDescendants (th : List (ReadCode × List String)) (parent : ReadCode) :
    List (ReadCode × List String) :=
  ((th.dropWhile (fun e => decide (e.1.cmp parent = .lt))).drop 1).takeWhile
    (fun e => parent.is_parent_of e.1)

theorem dropWhile_append_block {α : Type} (pred : α → Bool) (pre : List α)
    (x : α) (post : List α) (hpre : ∀ e ∈ pre, pred e = true)
    (hx : pred x = false) :
    List.dropWhile pred (pre ++ x :: post) = x :: post := by
  induction pre with
  | nil => simp [List.dropWhile_cons, hx]
  | cons a t ih =>
    rw [List.cons_append, List.dropWhile_cons, if_pos (hpre a (by simp))]
    exact ih (fun e he => hpre e (by simp [he]))

theorem takeWhile_eq_filter_of_mono {α : Type} (pred : α → Bool)
    (l : List α) (h : l.Pairwise (fun a b => pred b = true → pred a = true)) :
    l.takeWhile pred = l.filter pred := by
  induction l with
  | nil => rfl
  | cons a t ih =>
    rw [List.pairwise_cons] at h
    by_cases hp : pred a = true
    · rw [List.takeWhile_cons, if_pos hp, List.filter_cons, if_pos hp,
        ih h.2]
    · rw [List.takeWhile_cons, if_neg hp, List.filter_cons,
        if_neg hp]
      have : t.filter pred = [] := by
        rw [List.filter_eq_nil_iff]
        intro b hb hpb
        exact hp (h.1 b hb hpb)
      rw [this]

theorem is_parent_of_irrefl (p : ReadCode) : p.is_parent_of p = false := by
  simp [ReadCode.is_parent_of, ReadCode.is_child_of]

/-- C4 counterexample: with a thesaurus containing only the code `A1...`
(a descendant of `A....`) and queried at parent `A....` — which is not a key
of the map — `iter_descendants` yields nothing: `skip(1)` drops the first
entry at-or-after the parent, which here is a descendant. -/
theorem iterDescendants_cex :
    (⟨[65, 46, 46, 46, 46], rfl⟩ : ReadCode).is_parent_of
       ⟨[65, 49, 46, 46, 46], rfl⟩ = true ∧
    iterDescendants [(⟨[65, 49, 46, 46, 46], rfl⟩, ["Agent"])]
       ⟨[65, 46, 46, 46, 46], rfl⟩ = [] := by
  constructor
  · decide
  · rfl

/-- C4 (amended): when the parent IS a key of the thesaurus map and its dots
form a trailing run, `iter_descendants` yields exactly the entries whose key
is a descendant of the parent, in ascending (map) order, and never the
parent itself.  When the parent is not a key the first entry after it is
skipped even if it is a descendant (see the counterexample). -/
theorem iterDescendants_spec (th : List (ReadCode × List String))
    (p : ReadCode) (d : List String)
    (hsort : th.Pairwise (fun e f => e.1.cmp f.1 = .lt))
    (hmem : (p, d) ∈ th) (hdot : dotSuffix p.bytes = true) :
    iterDescendants th p = th.filter (fun e => p.is_parent_of e.1) ∧
    ∀ e ∈ iterDescendants th p, e.1 ≠ p := by
  obtain ⟨pre, post, rfl⟩ := List.append_of_mem hmem
  rw [List.pairwise_append] at hsort
  obtain ⟨hpre_sort, hmid_sort, hcross⟩ := hsort
  rw [List.pairwise_cons] at hmid_sort
  obtain ⟨hpost_gt, hpost_sort⟩ := hmid_sort
  have hpre_lt : ∀ e ∈ pre, e.1.cmp p = .lt := by
    intro e he
    exact hcross e he (p, d) (by simp)
  have hstep1 :
      ((pre ++ (p, d) :: post).dropWhile
        (fun e => decide (e.1.cmp p = .lt))) = (p, d) :: post := by
    refine dropWhile_append_block _ pre (p, d) post ?_ ?_
    · intro e he
      exact decide_eq_true (hpre_lt e he)
    · refine decide_eq_false ?_
      intro hcon
      rw [show ReadCode.cmp p p = .eq from cmpBytes_self p.bytes] at hcon
      cases hcon
  have hparent_lt : ∀ e : ReadCode × List String,
      p.is_parent_of e.1 = true → p.cmp e.1 = .lt := by
    intro e he
    simp only [ReadCode.is_parent_of, ReadCode.is_child_of, Bool.and_eq_true,
      Bool.not_eq_true', decide_eq_false_iff_not] at he
    exact childBytes_lt he.2 (fun h => he.1 ((ReadCode.ext_iff' e.1 p).mpr h))
  have hstep3 :
      post.takeWhile (fun e => p.is_parent_of e.1) =
        post.filter (fun e => p.is_parent_of e.1) := by
    refine takeWhile_eq_filter_of_mono _ post ?_
    refine List.Pairwise.imp_of_mem ?_ hpost_sort
    intro a b ha hb hab hpb
    simp only [ReadCode.is_parent_of, ReadCode.is_child_of, Bool.and_eq_true,
      Bool.not_eq_true', decide_eq_false_iff_not] at hpb ⊢
    have hpa := hpost_gt a ha
    refine ⟨?_, ?_⟩
    · intro hcon
      rw [hcon] at hpa
      cases (cmpBytes_self p.bytes).symm.trans hpa
    · exact childBytes_contiguous (by rw [p.len5, a.1.len5])
        (by rw [a.1.len5, b.1.len5]) hdot hpb.2 hpa hab
  have hfilter_pre : pre.filter (fun e => p.is_parent_of e.1) = [] := by
    rw [List.filter_eq_nil_iff]
    intro e he hcon
    have h1 := hparent_lt e hcon
    have h2 := hpre_lt e he
    have h3 := cmpBytes_trans h1 h2
    rw [cmpBytes_self p.bytes] at h3
    cases h3
  have hmain : iterDescendants (pre ++ (p, d) :: post) p =
      (pre ++ (p, d) :: post).filter (fun e => p.is_parent_of e.1) := by
    rw [iterDescendants, hstep1, List.drop_one, List.tail_cons, hstep3,
      List.filter_append, hfilter_pre, List.nil_append, List.filter_cons,
      is_parent_of_irrefl]
    simp
  refine ⟨hmain, ?_⟩
  intro e he
  rw [hmain] at he
  have := List.of_mem_filter he
  simp only [ReadCode.is_parent_of, ReadCode.is_child_of, Bool.and_eq_true,
    Bool.not_eq_true', decide_eq_false_iff_not] at this
  exact this.1

/-- C4 witness: the amended descendant-iteration theorem applied at a
concrete two-entry thesaurus keyed by `A....` and `A1...`. -/
theorem iterDescendants_spec_witness :
    iterDescendants
        [(⟨[65, 46, 46, 46, 46], rfl⟩, ["Agent"]),
         (⟨[65, 49, 46, 46, 46], rfl⟩, ["Child agent"])]
        ⟨[65, 46, 46, 46, 46], rfl⟩ =
      List.filter
        (fun e => (⟨[65, 46, 46, 46, 46], rfl⟩ : ReadCode).is_parent_of e.1)
        [(⟨[65, 46, 46, 46, 46], rfl⟩, ["Agent"]),
         (⟨[65, 49, 46, 46, 46], rfl⟩, ["Child agent"])] :=
  (iterDescendants_spec
    [(⟨[65, 46, 46, 46, 46], rfl⟩, ["Agent"]),
     (⟨[65, 49, 46, 46, 46], rfl⟩, ["Child agent"])]
    ⟨[65, 46, 46, 46, 46], rfl⟩ ["Agent"]
    (by simp [List.pairwise_cons]; rfl) (by simp) (by decide)).1

-- ## Term filter DSL (termset.rs)

/-- Element of a compiled term regex.  `Term::to_regex` only ever emits word
boundaries (`\b`), escaped literal characters, and `\S*`. -/
inductive RElem where
  | boundary
  | lit (b : Nat)
  | star
deriving DecidableEq

/-- ASCII lower-casing: the model of the regex engine's case-insensitive
comparison. -/
def lowerB (b : Nat) : Nat := if 65 ≤ b ∧ b ≤ 90 then b + 32 else b

/-- ASCII word character (`\w`): alphanumeric or underscore. -/
def isWordB (b : Nat) : Bool :=
  (48 ≤ b && b ≤ 57) || (65 ≤ b && b ≤ 90) || (97 ≤ b && b ≤ 122) || b == 95

/-- ASCII whitespace (`\s`): space, tab, newline, formfeed, carriage
return. -/
def isSpaceB (b : Nat) : Bool :=
  b == 32 || b == 9 || b == 10 || b == 12 || b == 13

def isWordOpt : Option Nat → Bool
  | none => false
  | some b => isWordB b

/-- The candidate continuation points of `\S*` at a position: consume zero
or more non-whitespace bytes.  Each entry is (previous byte, rest). -/
def starExpansions (prev : Option Nat) (text : List Nat) :
    List (Option Nat × List Nat) :=
  (prev, text) ::
    (match text with
     | [] => []
     | b :: rest => if isSpaceB b then [] else starExpansions (some b) rest)

/-- Matching a compiled term regex at a fixed position: `prev` is the byte
just before the position (for `\b`), `text` the remaining input.  `\S*`
tries every non-whitespace expansion. -/
def matchFrom (r : List RElem) (prev : Option Nat) (text : List Nat) : Bool :=
  match r with
  | [] => true
  | .boundary :: rs =>
    (isWordOpt prev != isWordOpt text.head?) && matchFrom rs prev text
  | .lit c :: rs =>
    match text with
    | [] => false
    | b :: rest => (lowerB c == lowerB b) && matchFrom rs (some b) rest
  | .star :: rs =>
    (starExpansions prev text).any (fun pt => matchFrom rs pt.1 pt.2)

/-- Unanchored regex search from every position. -/
def searchFrom (r : List RElem) (prev : Option Nat) (text : List Nat) : Bool :=
  match text with
  | [] => matchFrom r prev []
  | b :: rest => matchFrom r prev (b :: rest) || searchFrom r (some b) rest

/-- `Regex::is_match`: the regex matches somewhere in the text. -/
def reMatch (r : List RElem) (text : List Nat) : Bool :=
  searchFrom r none text

/-- A part of a `Term` (`TermPart` in `termset.rs`). -/
inductive TermPart where
  | literal (s : List Nat)
  | asterisk
deriving DecidableEq

/-- The loop body of `Term::to_regex`: emits literal characters, `\S*` for
interior asterisks, nothing for a trailing asterisk, and a trailing `\b`
after a final literal. -/
def toRegexGo : List TermPart → List RElem
  | [] => []
  | .asterisk :: rest => if rest.isEmpty then [] else .star :: toRegexGo rest
  | .literal s :: rest =>
    s.map RElem.lit ++ (if rest.isEmpty then [.boundary] else []) ++
      toRegexGo rest

/-- `Term::to_regex` from `termset.rs`: a leading asterisk is discarded
(no start anchor); otherwise a `\b` is emitted first. -/
def toRegex (parts : List TermPart) : List RElem :=
  match parts with
  | .asterisk :: rest => toRegexGo rest
  | _ => .boundary :: toRegexGo parts

/-- `Filter::is_match` from `termset.rs`: a `Filter` wraps a `RegexSet` (one
regex per term) and matches when the number of matching regexes equals the
set size, i.e. when every regex matches. -/
def filterIsMatch (f : List (List RElem)) (text : List Nat) : Bool :=
  (f.filter (fun r => reMatch r text)).length == f.length

/-- `FilterSet::is_match` from `termset.rs`: any filter matches. -/
def filterSetIsMatch (fs : List (List (List RElem))) (text : List Nat) :
    Bool :=
  fs.any (fun f => filterIsMatch f text)

/-- Lexer token (`TermFilterTok` in `termset.rs`). -/
inductive Tok where
  | literal (s : List Nat)
  | whitespace
  | asterisk
deriving DecidableEq

/-- The whitespace class of the lexer's `[ \t\n\f]+` rule. -/
def isWsTok (b : Nat) : Bool := b == 32 || b == 9 || b == 10 || b == 12

/-- A character of a bare literal token: `[^*" \t\n\f]+`. -/
def isBareCh (b : Nat) : Bool :=
  !(b == 42 || b == 34 || b == 32 || b == 9 || b == 10 || b == 12)

theorem dropWhileLen {α : Type} (p : α → Bool) (l : List α) :
    (l.dropWhile p).length ≤ l.length := by
  induction l with
  | nil => simp
  | cons a t ih =>
    rw [List.dropWhile_cons]
    split_ifs
    · exact le_trans ih (by simp)
    · simp

theorem dropWhileTailLen {α : Type} {p : α → Bool} {l r : List α} {x : α}
    (h : l.dropWhile p = x :: r) : r.length < l.length + 1 := by
  have h1 := congrArg List.length h
  have h2 := dropWhileLen p l
  simp at h1
  omega

/-- The lexer of `termset.rs` (logos rules on `TermFilterTok`): quoted spans
become single literal tokens with the quotes stripped, whitespace runs
collapse to one token, `*` is its own token, and any other run of
non-special characters is a bare literal.  Modelled from the spec for the
rule-conflict cases the logos attributes leave implicit: a quote character
opens a quoted literal, which must be non-empty and closed (else a lex
error, `none`). -/
def lexTermsGo : Nat → List Nat → Option (List Tok)
  | _, [] => some []
  | 0, _ :: _ => none
  | fuel + 1, b :: rest =>
    if b = 34 ∨ b = 39 then
      match rest.dropWhile (fun x => !(x == b)) with
      | [] => none
      | _ :: rest2 =>
        if (rest.takeWhile (fun x => !(x == b))).isEmpty then none
        else (lexTermsGo fuel rest2).map
          (fun ts => Tok.literal (rest.takeWhile (fun x => !(x == b))) :: ts)
    else if isWsTok b then
      (lexTermsGo fuel (rest.dropWhile isWsTok)).map
        (fun ts => Tok.whitespace :: ts)
    else if b = 42 then
      (lexTermsGo fuel rest).map (fun ts => Tok.asterisk :: ts)
    else
      (lexTermsGo fuel (rest.dropWhile isBareCh)).map
        (fun ts => Tok.literal (b :: rest.takeWhile isBareCh) :: ts)

/-- The lexer entry point.  Every step consumes at least one byte, so a fuel
of `input.length` always suffices; the fuel only makes the recursion
structural. -/
def lexTerms (input : List Nat) : Option (List Tok) :=
  lexTermsGo input.length input

/-- One whitespace-delimited group of tokens, turned into the parts of a
single `Term`; returns the parts and the remaining tokens. -/
def takeTerm : List Tok → List TermPart × List Tok
  | [] => ([], [])
  | .whitespace :: rest => ([], rest)
  | .literal s :: rest =>
    let p := takeTerm rest
    (TermPart.literal s :: p.1, p.2)
  | .asterisk :: rest =>
    let p := takeTerm rest
    (TermPart.asterisk :: p.1, p.2)

theorem takeTerm_snd_le (toks : List Tok) :
    (takeTerm toks).2.length ≤ toks.length := by
  induction toks with
  | nil => simp [takeTerm]
  | cons t rest ih =>
    cases t with
    | whitespace => simp [takeTerm]
    | literal s =>
      simp only [takeTerm]
      exact le_trans ih (by simp)
    | asterisk =>
      simp only [takeTerm]
      exact le_trans ih (by simp)

/-- Modelled from the spec: the lalrpop grammar
`read2/termset/parser.lalrpop` is not under `src/`; per §4.4 the expression
is a sequence of whitespace-separated terms, each term a run of
literal/asterisk tokens. -/
def parseTokensGo : Nat → List Tok → List (List TermPart)
  | _, [] => []
  | 0, _ :: _ => []
  | fuel + 1, .whitespace :: rest => parseTokensGo fuel rest
  | fuel + 1, .literal s :: rest =>
    (TermPart.literal s :: (takeTerm rest).1) ::
      parseTokensGo fuel (takeTerm rest).2
  | fuel + 1, .asterisk :: rest =>
    (TermPart.asterisk :: (takeTerm rest).1) ::
      parseTokensGo fuel (takeTerm rest).2

/-- The parser entry point; as with the lexer the fuel `toks.length` always
suffices and only makes the recursion structural. -/
def parseTokens (toks : List Tok) : List (List TermPart) :=
  parseTokensGo toks.length toks

/-- `TermFilter::parse` followed by `codegen`: lex, then group into terms,
then compile each term to its regex (`TermFilter::codegen` builds the
case-insensitive `RegexSet` of all the term regexes). -/
def compileTerm (s : String) : Option (List (List RElem)) :=
  (lexTerms (strBytes s)).map (fun toks => (parseTokens toks).map toRegex)

/-- `FilterSet::new` from `termset.rs`: compile every term string, failing
if any fails. -/
def filterSetNew (terms : List String) :
    Option (List (List (List RElem))) :=
  match terms with
  | [] => some []
  | t :: ts =>
    match compileTerm t, filterSetNew ts with
    | some f, some fs => some (f :: fs)
    | _, _ => none

/-- `TermSet` from `termset.rs`, restricted to the fields that the matching
behaviour depends on (name/author/timestamps omitted). -/
structure TermSet where
  include_terms : List String
  exclude_terms : List String
  includes : List (List (List RElem))
  excludes : List (List (List RElem))
deriving DecidableEq

/-- `TermSet::is_match`: at least one include filter matches and no exclude
filter matches. -/
def TermSet.is_match (ts : TermSet) (desc : String) : Bool :=
  filterSetIsMatch ts.includes (strBytes desc) &&
    !filterSetIsMatch ts.excludes (strBytes desc)

/-- `TermSet::is_match_multi` from `termset.rs`: the loop accumulating
`include`/`exclude` flags over all descriptions of a code. -/
def TermSet.is_match_multi (ts : TermSet) (descs : List String) : Bool :=
  let p := descs.foldl
    (fun (acc : Bool × Bool) desc =>
      (acc.1 || filterSetIsMatch ts.includes (strBytes desc),
       acc.2 || filterSetIsMatch ts.excludes (strBytes desc)))
    (false, false)
  p.1 && !p.2

/-- `TermSet::add_include`: push the term, recompile the include filter set
(failure leaves the object unusable; modelled as `none`). -/
def TermSet.add_include (ts : TermSet) (t : String) : Option TermSet :=
  match filterSetNew (ts.include_terms ++ [t]) with
  | some f => some { ts with include_terms := ts.include_terms ++ [t],
                             includes := f }
  | none => none

/-- `TermSet::add_exclude`, same shape as `add_include`. -/
def TermSet.add_exclude (ts : TermSet) (t : String) : Option TermSet :=
  match filterSetNew (ts.exclude_terms ++ [t]) with
  | some f => some { ts with exclude_terms := ts.exclude_terms ++ [t],
                             excludes := f }
  | none => none

/-- `TermSet::remove_include`: retain every stored term different from `t`
(all occurrences of `t` are removed); when something was removed, recompile
with `.unwrap()` — the panic is modelled as `none`. -/
def TermSet.remove_include (ts : TermSet) (t : String) : Option TermSet :=
  if t ∈ ts.include_terms then
    match filterSetNew (ts.include_terms.filter (fun s => decide (s ≠ t))) with
    | some f => some { ts with
        include_terms := ts.include_terms.filter (fun s => decide (s ≠ t)),
        includes := f }
    | none => none
  else some ts

/-- `TermSet::filter` from `termset.rs`: keep the thesaurus entries whose
description set matches. -/
def TermSet.filterCodes (ts : TermSet)
    (entries : List (ReadCode × List String)) :
    List (ReadCode × List String) :=
  entries.filter (fun e => ts.is_match_multi e.2)

/-- `TermCodeSet` from `termcodeset.rs`. -/
structure TermCodeSet where
  code_set : List ReadCode
  term_set : TermSet
  th : List (ReadCode × List String)
deriving DecidableEq

/-- `TermSet::match_thesaurus` (also the body of `Thesaurus::filter`): the
fresh code set is the filtered thesaurus' keys. -/
def TermSet.match_thesaurus (ts : TermSet)
    (th : List (ReadCode × List String)) : TermCodeSet :=
  ⟨(ts.filterCodes th).map Prod.fst, ts, th⟩

/-- `TermCodeSet::add_include` from `termcodeset.rs`: delegate to the inner
term set, then fully recompute `code_set` from the thesaurus. -/
def TermCodeSet.add_include (tcs : TermCodeSet) (t : String) :
    Option TermCodeSet :=
  match tcs.term_set.add_include t with
  | some ts' => some ⟨(ts'.filterCodes tcs.th).map Prod.fst, ts', tcs.th⟩
  | none => none

/-- `TermCodeSet::add_exclude` from `termcodeset.rs`. -/
def TermCodeSet.add_exclude (tcs : TermCodeSet) (t : String) :
    Option TermCodeSet :=
  match tcs.term_set.add_exclude t with
  | some ts' => some ⟨(ts'.filterCodes tcs.th).map Prod.fst, ts', tcs.th⟩
  | none => none

-- ## C3: term-filter matching semantics

/-- C3: a compiled `Filter` matches a text iff every whitespace-separated
term's regex matches somewhere in it (AND in any order); a `FilterSet`
matches iff any one of its filters does (OR); a term regex opens with a word
boundary unless the term starts with a wildcard (boundary and wildcard
compilation being the `toRegex` embedding of `Term::to_regex`); and
concretely the bare term `lymphoma` does not match `"lymphomas"`, while the
filter `secondary and unspecified` matches `"unspecified and secondary
tumour"` but not `"secondary tumour"`. -/
theorem termFilter_semantics (f : List (List RElem))
    (fs : List (List (List RElem))) (tf : List (List TermPart))
    (parts : List TermPart) (text : List Nat) :
    (filterIsMatch f text = true ↔ ∀ r ∈ f, reMatch r text = true) ∧
    (filterIsMatch (tf.map toRegex) text = true ↔
      ∀ ps ∈ tf, reMatch (toRegex ps) text = true) ∧
    (filterSetIsMatch fs text = true ↔
      ∃ g ∈ fs, filterIsMatch g text = true) ∧
    (toRegex (TermPart.asterisk :: parts) = toRegexGo parts) ∧
    (parts.head? ≠ some TermPart.asterisk →
      toRegex parts = RElem.boundary :: toRegexGo parts) ∧
    ((compileTerm "lymphoma").map
      (fun g => filterIsMatch g (strBytes "lymphomas")) = some false) ∧
    ((compileTerm "secondary and unspecified").map
      (fun g => filterIsMatch g (strBytes "unspecified and secondary tumour"))
        = some true) ∧
    ((compileTerm "secondary and unspecified").map
      (fun g => filterIsMatch g (strBytes "secondary tumour")) = some false) := by
  have hAll : filterIsMatch f text = true ↔ ∀ r ∈ f, reMatch r text = true := by
    rw [filterIsMatch, beq_iff_eq]
    exact List.filter_length_eq_length
  refine ⟨hAll, ?_, ?_, rfl, ?_, by decide, by decide, by decide⟩
  · rw [filterIsMatch, beq_iff_eq, List.filter_length_eq_length]
    constructor
    · intro h ps hps
      exact h (toRegex ps) (List.mem_map_of_mem _ hps)
    · intro h r hr
      obtain ⟨ps, hps, rfl⟩ := List.mem_map.mp hr
      exact h ps hps
  · rw [filterSetIsMatch, List.any_eq_true]
  · intro hhead
    cases parts with
    | nil => rfl
    | cons p rest =>
      cases p with
      | literal s => rfl
      | asterisk => exact absurd rfl hhead

/-- C3 witness: the semantics theorem applied at a concrete filter, with the
leading-boundary hypothesis discharged for a concrete literal term. -/
theorem termFilter_semantics_witness :
    toRegex [TermPart.literal [97]] =
      RElem.boundary :: toRegexGo [TermPart.literal [97]] :=
  (termFilter_semantics [] [] [] [TermPart.literal [97]] []).2.2.2.2.1
    (by decide)

-- ## C10: `TermSet::remove_include` never panics on a well-formed set

theorem filterSetNew_isSome_iff (terms : List String) :
    (filterSetNew terms).isSome = true ↔
      ∀ t ∈ terms, (compileTerm t).isSome = true := by
  induction terms with
  | nil => simp [filterSetNew]
  | cons t ts ih =>
    simp only [filterSetNew]
    cases hc : compileTerm t with
    | none =>
      constructor
      · intro h
        simp at h
      · intro h
        have ht := h t (List.mem_cons_self t ts)
        rw [hc] at ht
        simp at ht
    | some f =>
      cases hfs : filterSetNew ts with
      | none =>
        rw [hfs] at ih
        constructor
        · intro h
          simp at h
        · intro h
          have hts : ∀ u ∈ ts, (compileTerm u).isSome = true :=
            fun u hu => h u (List.mem_cons_of_mem _ hu)
          have h2 := ih.mpr hts
          simp at h2
      | some fs =>
        rw [hfs] at ih
        simp only [Option.isSome_some, true_iff] at ih
        constructor
        · intro _ u hu
          rcases List.mem_cons.mp hu with rfl | hu2
          · rw [hc]
            rfl
          · exact ih u hu2
        · intro _
          rfl

/-- C10: on any `TermSet` whose stored include terms all compiled (true of
every set built through the public constructors and mutators),
`remove_include` cannot hit its `unwrap` panic: recompiling the retained
subset of terms always succeeds. -/
theorem removeInclude_no_panic (ts : TermSet) (t : String)
    (hwf : (filterSetNew ts.include_terms).isSome = true) :
    (ts.remove_include t).isSome = true := by
  unfold TermSet.remove_include
  by_cases hmem : t ∈ ts.include_terms
  · rw [if_pos hmem]
    have hall := (filterSetNew_isSome_iff ts.include_terms).mp hwf
    have hsub : ∀ u ∈ ts.include_terms.filter (fun s => decide (s ≠ t)),
        (compileTerm u).isSome = true := by
      intro u hu
      exact hall u (List.mem_of_mem_filter hu)
    have hsome := (filterSetNew_isSome_iff _).mpr hsub
    cases hfs : filterSetNew
        (ts.include_terms.filter (fun s => decide (s ≠ t))) with
    | none =>
      rw [hfs] at hsome
      simp at hsome
    | some f =>
      rfl
  · rw [if_neg hmem]
    rfl

/-- C10 witness: a concrete two-term set; removing either a stored or an
absent term succeeds. -/
theorem removeInclude_no_panic_witness :
    ((TermSet.mk ["a"] [] [[[RElem.boundary, RElem.lit 97, RElem.boundary]]]
      []).remove_include "a").isSome = true :=
  removeInclude_no_panic
    (TermSet.mk ["a"] [] [[[RElem.boundary, RElem.lit 97, RElem.boundary]]] [])
    "a" (by decide)

-- ## C8: add_include then remove_include

/-- The concrete term set `{includes := ["a"], excludes := []}` with its
compiled filter. -/
def cexTS : TermSet :=
  TermSet.mk ["a"] [] [[[RElem.boundary, RElem.lit 97, RElem.boundary]]] []

/-- C8 counterexample: when `t` is already stored, `add_include(t)` then
`remove_include(t)` does NOT restore the original behaviour, because
`remove_include` removes every occurrence of `t`: with include list `["a"]`,
after the pair the list is empty and `"a"` no longer matches. -/
theorem addRemove_include_cex :
    cexTS.is_match "a" = true ∧
    ((cexTS.add_include "a").bind
      (fun ts' => ts'.remove_include "a")).map
        (fun ts'' => ts''.is_match "a") = some false := by
  constructor
  · decide
  · decide

/-- C8 (amended): for a `TermSet` whose compiled include filter is in sync
with its stored terms, and a term `t` that compiles and is NOT already in
the include list, `add_include(t)` followed by `remove_include(t)` restores
a `TermSet` with identical `is_match` behaviour on every description.  (For
a `t` already present the pair removes the pre-existing occurrences too —
see the counterexample.) -/
theorem addRemove_include_inverse (ts : TermSet) (t : String)
    (hwf : filterSetNew ts.include_terms = some ts.includes)
    (hnm : t ∉ ts.include_terms)
    (ts' ts'' : TermSet)
    (hadd : ts.add_include t = some ts')
    (hrem : ts'.remove_include t = some ts'') :
    ∀ desc, ts''.is_match desc = ts.is_match desc := by
  unfold TermSet.add_include at hadd
  cases hfs : filterSetNew (ts.include_terms ++ [t]) with
  | none =>
    rw [hfs] at hadd
    simp at hadd
  | some f =>
    rw [hfs] at hadd
    simp only [Option.some.injEq] at hadd
    subst hadd
    unfold TermSet.remove_include at hrem
    have hretained : (ts.include_terms ++ [t]).filter (fun s => decide (s ≠ t))
        = ts.include_terms := by
      rw [List.filter_append]
      have h1 : ts.include_terms.filter (fun s => decide (s ≠ t))
          = ts.include_terms := by
        rw [List.filter_eq_self]
        intro a ha
        exact decide_eq_true (fun hat => hnm (hat ▸ ha))
      have h2 : [t].filter (fun s => decide (s ≠ t)) = [] := by simp
      rw [h1, h2, List.append_nil]
    simp only [List.mem_append, List.mem_singleton, or_true, if_true,
      hretained, hwf, Option.some.injEq] at hrem
    subst hrem
    intro desc
    rfl

/-- C8 witness: the amended inverse theorem applied at the concrete set
`{includes := ["a"]}` and the fresh term `"b"`. -/
theorem addRemove_include_inverse_witness :
    cexTS.is_match "a" = cexTS.is_match "a" :=
  addRemove_include_inverse cexTS "b" (by decide) (by decide)
    (TermSet.mk ["a", "b"] []
      [[[RElem.boundary, RElem.lit 97, RElem.boundary]],
       [[RElem.boundary, RElem.lit 98, RElem.boundary]]] [])
    cexTS (by decide) (by decide) "a"

-- ## C2: the `TermCodeSet.code_set` invariant

theorem mem_filterCodes_map (ts : TermSet)
    (entries : List (ReadCode × List String)) (c : ReadCode) :
    c ∈ (ts.filterCodes entries).map Prod.fst ↔
      ∃ ds, (c, ds) ∈ entries ∧ ts.is_match_multi ds = true := by
  rw [List.mem_map]
  constructor
  · rintro ⟨e, he, rfl⟩
    have hf := List.mem_filter.mp he
    exact ⟨e.2, hf.1, hf.2⟩
  · rintro ⟨ds, hm, hp⟩
    exact ⟨(c, ds), List.mem_filter.mpr ⟨hm, hp⟩, rfl⟩

/-- C2: after `match_thesaurus`/`Thesaurus::filter`, and after every
successful `TermCodeSet::add_include`/`add_exclude`, the `code_set` is
exactly the set of thesaurus codes whose description set satisfies
`is_match_multi` for the (updated) term set. -/
theorem termCodeSet_code_set_invariant (ts : TermSet)
    (th : List (ReadCode × List String)) (c : ReadCode) :
    (c ∈ (ts.match_thesaurus th).code_set ↔
      ∃ ds, (c, ds) ∈ th ∧ ts.is_match_multi ds = true) ∧
    (∀ (tcs : TermCodeSet) (t : String) (tcs' : TermCodeSet),
      tcs.add_include t = some tcs' →
      (c ∈ tcs'.code_set ↔
        ∃ ds, (c, ds) ∈ tcs'.th ∧ tcs'.term_set.is_match_multi ds = true)) ∧
    (∀ (tcs : TermCodeSet) (t : String) (tcs' : TermCodeSet),
      tcs.add_exclude t = some tcs' →
      (c ∈ tcs'.code_set ↔
        ∃ ds, (c, ds) ∈ tcs'.th ∧ tcs'.term_set.is_match_multi ds = true)) := by
  refine ⟨mem_filterCodes_map ts th c, ?_, ?_⟩
  · intro tcs t tcs' hadd
    unfold TermCodeSet.add_include at hadd
    cases hts : tcs.term_set.add_include t with
    | none =>
      rw [hts] at hadd
      simp at hadd
    | some ts2 =>
      rw [hts] at hadd
      simp only [Option.some.injEq] at hadd
      subst hadd
      exact mem_filterCodes_map ts2 tcs.th c
  · intro tcs t tcs' hadd
    unfold TermCodeSet.add_exclude at hadd
    cases hts : tcs.term_set.add_exclude t with
    | none =>
      rw [hts] at hadd
      simp at hadd
    | some ts2 =>
      rw [hts] at hadd
      simp only [Option.some.injEq] at hadd
      subst hadd
      exact mem_filterCodes_map ts2 tcs.th c

/-- Concrete thesaurus used in the C2 witness. -/
def witTh : List (ReadCode × List String) :=
  [(evCode, ["Hodgkin lymphoma"]), (evCodeOther, ["Something else"])]

/-- The empty term set. -/
def witTS : TermSet := TermSet.mk [] [] [] []

/-- The term set `{includes := ["hodgkin"]}` with its compiled filter. -/
def witTS1 : TermSet :=
  TermSet.mk ["hodgkin"] []
    [[[RElem.boundary, RElem.lit 104, RElem.lit 111, RElem.lit 100,
       RElem.lit 103, RElem.lit 107, RElem.lit 105, RElem.lit 110,
       RElem.boundary]]] []

/-- The term-code set after `add_include "hodgkin"` on the empty set over
`witTh`. -/
def witTCS1 : TermCodeSet := TermCodeSet.mk [evCode] witTS1 witTh

/-- C2 witness: the invariant applied to a concrete `add_include` edit. -/
theorem termCodeSet_code_set_invariant_witness :
    evCode ∈ witTCS1.code_set ↔
      ∃ ds, (evCode, ds) ∈ witTCS1.th ∧
        witTCS1.term_set.is_match_multi ds = true :=
  (termCodeSet_code_set_invariant witTS witTh evCode).2.1
    (witTS.match_thesaurus witTh) "hodgkin" witTCS1 (by decide)

-- ## C9: lymphoma subtype classification (subtypes.rs)

/-- `NonHodgkinSubtype` from `subtypes.rs`. -/
inductive NonHodgkinSubtype where
  | Unspecified
  | Small
  | Splenic
  | Lymphoplasmacytic
  | ExtraMarginal
  | Follicular
  | Mantle
  | DLBCL
  | Mediastinal
  | Burkitt
  | Nasal
  | SubcutaneousT
  | Peripheral
  | Angioimmunoblastic
  | AlkPos
  | AlkNeg
deriving DecidableEq

/-- `LymphomaSubtype` from `subtypes.rs`. -/
inductive LymphomaSubtype where
  | Unspecified
  | Hodgkin
  | NonHodgkin (s : NonHodgkinSubtype)
deriving DecidableEq

/-- All non-Hodgkin subtypes, in declaration order. -/
def allNH : List NonHodgkinSubtype :=
  [.Unspecified, .Small, .Splenic, .Lymphoplasmacytic, .ExtraMarginal,
   .Follicular, .Mantle, .DLBCL, .Mediastinal, .Burkitt, .Nasal,
   .SubcutaneousT, .Peripheral, .Angioimmunoblastic, .AlkPos, .AlkNeg]

/-- All lymphoma subtypes. -/
def allSubtypes : List LymphomaSubtype :=
  .Unspecified :: .Hodgkin :: allNH.map .NonHodgkin

theorem mem_allSubtypes (s : LymphomaSubtype) : s ∈ allSubtypes := by
  cases s with
  | Unspecified => decide
  | Hodgkin => decide
  | NonHodgkin nh => cases nh <;> decide

/-- The filter of the first exclusion pass in `classify`:
`matches!(subtype, NonHodgkin(s) if !matches!(s, Unspecified))`. -/
def isSpecificNH : LymphomaSubtype → Bool
  | .NonHodgkin s => decide (s ≠ NonHodgkinSubtype.Unspecified)
  | _ => false

/-- The code→subtype map (`CodeSubtypeMap`): an association list keyed by
(code, rubric). -/
def lookupSubtype (m : List ((ReadCode × String) × LymphomaSubtype))
    (cr : ReadCode × String) : Option LymphomaSubtype :=
  (m.find? (fun e => decide (e.1 = cr))).map Prod.snd

/-- The first pass of `CodeSubtypeMap::classify`: the set of patients having
at least one event mapped to subtype `s`. -/
def rawSubtype (m : List ((ReadCode × String) × LymphomaSubtype))
    (events : List Event) (s : LymphomaSubtype) : Finset Nat :=
  ((events.filter (fun e =>
      decide (lookupSubtype m (e.read_code, e.rubric) = some s))).map
    Event.patient_id).toFinset

/-- Union of a family of patient sets over a list of subtypes. -/
def unionOver (l : List LymphomaSubtype) (f : LymphomaSubtype → Finset Nat) :
    Finset Nat :=
  l.foldr (fun s acc => f s ∪ acc) ∅

/-- `excl_ids` after the first collection pass: all patients in a specific
non-Hodgkin bucket. -/
def exclSpecific (m : List ((ReadCode × String) × LymphomaSubtype))
    (events : List Event) : Finset Nat :=
  unionOver (allSubtypes.filter isSpecificNH) (rawSubtype m events)

/-- The `NonHodgkin(Unspecified)` bucket after its exclusion pass. -/
def nhUnspec (m : List ((ReadCode × String) × LymphomaSubtype))
    (events : List Event) : Finset Nat :=
  rawSubtype m events (.NonHodgkin .Unspecified) \ exclSpecific m events

/-- The per-subtype map after the `NonHodgkin(Unspecified)` replacement. -/
def rawAfterNH (m : List ((ReadCode × String) × LymphomaSubtype))
    (events : List Event) (s : LymphomaSubtype) : Finset Nat :=
  if s = LymphomaSubtype.NonHodgkin .Unspecified then nhUnspec m events
  else rawSubtype m events s

/-- `excl_ids` after the `extend` over every non-`Unspecified` bucket of the
updated map. -/
def exclAll (m : List ((ReadCode × String) × LymphomaSubtype))
    (events : List Event) : Finset Nat :=
  exclSpecific m events ∪
    unionOver (allSubtypes.filter (fun s => decide (s ≠ .Unspecified)))
      (rawAfterNH m events)

/-- `CodeSubtypeMap::classify` from `subtypes.rs`, as a function from
subtype to patient set (an absent key of the returned map reads as `∅`). -/
def classify (m : List ((ReadCode × String) × LymphomaSubtype))
    (events : List Event) (s : LymphomaSubtype) : Finset Nat :=
  if s = LymphomaSubtype.Unspecified then
    rawSubtype m events .Unspecified \ exclAll m events
  else rawAfterNH m events s

theorem mem_unionOver {l : List LymphomaSubtype}
    {f : LymphomaSubtype → Finset Nat} {p : Nat} :
    p ∈ unionOver l f ↔ ∃ s ∈ l, p ∈ f s := by
  induction l with
  | nil => simp [unionOver]
  | cons a t ih =>
    simp only [unionOver, List.foldr_cons, Finset.mem_union, List.mem_cons]
    rw [show (t.foldr (fun s acc => f s ∪ acc) ∅) = unionOver t f from rfl, ih]
    constructor
    · rintro (hp | ⟨s, hs, hp⟩)
      · exact ⟨a, Or.inl rfl, hp⟩
      · exact ⟨s, Or.inr hs, hp⟩
    · rintro ⟨s, rfl | hs, hp⟩
      · exact Or.inl hp
      · exact Or.inr ⟨s, hs, hp⟩

theorem classify_subset_raw (m : List ((ReadCode × String) × LymphomaSubtype))
    (events : List Event) (s : LymphomaSubtype) :
    classify m events s ⊆ rawSubtype m events s := by
  intro p hp
  rw [classify] at hp
  split_ifs at hp with hU
  · subst hU
    exact Finset.mem_sdiff.mp hp |>.1
  · rw [rawAfterNH] at hp
    split_ifs at hp with hNH
    · subst hNH
      exact Finset.mem_sdiff.mp hp |>.1
    · exact hp

/-- C9: the per-subtype sets returned by `classify` only contain patients
with at least one mapped (code, rubric) event; no patient is in both the
plain-lymphoma `Unspecified` bucket and any other bucket; and no patient is
in both `NonHodgkin(Unspecified)` and any specific non-Hodgkin bucket. -/
theorem classify_invariants (m : List ((ReadCode × String) × LymphomaSubtype))
    (events : List Event) :
    (∀ s : LymphomaSubtype, ∀ p ∈ classify m events s,
      ∃ e ∈ events, e.patient_id = p ∧
        (lookupSubtype m (e.read_code, e.rubric)).isSome = true) ∧
    (∀ s : LymphomaSubtype, s ≠ .Unspecified →
      ∀ p ∈ classify m events .Unspecified, p ∉ classify m events s) ∧
    (∀ nh : NonHodgkinSubtype, nh ≠ .Unspecified →
      ∀ p ∈ classify m events (.NonHodgkin .Unspecified),
        p ∉ classify m events (.NonHodgkin nh)) := by
  refine ⟨?_, ?_, ?_⟩
  · intro s p hp
    have hraw := classify_subset_raw m events s hp
    rw [rawSubtype] at hraw
    rw [List.mem_toFinset, List.mem_map] at hraw
    obtain ⟨e, he, hpe⟩ := hraw
    have hef := List.mem_filter.mp he
    refine ⟨e, hef.1, hpe, ?_⟩
    have := of_decide_eq_true hef.2
    rw [this]
    rfl
  · intro s hs p hpU hps
    rw [classify, if_pos rfl] at hpU
    have hnot := (Finset.mem_sdiff.mp hpU).2
    refine hnot ?_
    rw [exclAll, Finset.mem_union]
    refine Or.inr ?_
    rw [mem_unionOver]
    refine ⟨s, ?_, ?_⟩
    · rw [List.mem_filter]
      exact ⟨mem_allSubtypes s, decide_eq_true hs⟩
    · rw [classify, if_neg hs] at hps
      exact hps
  · intro nh hnh p hpU hps
    rw [classify, if_neg (by simp), rawAfterNH, if_pos rfl, nhUnspec] at hpU
    have hnot := (Finset.mem_sdiff.mp hpU).2
    refine hnot ?_
    rw [exclSpecific, mem_unionOver]
    refine ⟨.NonHodgkin nh, ?_, ?_⟩
    · rw [List.mem_filter]
      refine ⟨mem_allSubtypes _, ?_⟩
      simp [isSpecificNH, hnh]
    · rw [classify, if_neg (by simp), rawAfterNH,
        if_neg (by simp [hnh])] at hps
      exact hps

/-- Concrete code→subtype map for the C9 witness: patient 7 has both an
`Unspecified` and a `Hodgkin` event, patient 8 only an `Unspecified` one. -/
def witMap : List ((ReadCode × String) × LymphomaSubtype) :=
  [((evCode, "a"), .Unspecified), ((evCode, "b"), .Hodgkin),
   ((evCodeOther, "c"), .Unspecified)]

/-- C9 witness: the classification invariants applied at a concrete map and
event list — patient 8 survives in the `Unspecified` bucket and is therefore
not in the `Hodgkin` bucket. -/
theorem classify_invariants_witness :
    8 ∉ classify witMap evList LymphomaSubtype.Hodgkin :=
  (classify_invariants witMap evList).2.1 LymphomaSubtype.Hodgkin (by decide)
    8 (by decide)

end EAdapt
